import Mathlib

/-!
Verification development for the FastEstimator excerpt: the
`CombinedDataset` composite sequence (`fastestimator/dataset/combined_dataset.py`),
the `Saliency` trace's bounded sample collector and blend formula
(`fastestimator/trace/xai/saliency.py`), and the `pad_data` / `cpu_count`
utilities (`fastestimator/util/util.py`).

Python values are embedded shallowly: records (dicts) become association
lists over `String` keys with rational values, tensors become flat lists of
rationals, numpy arrays become a shape together with row-major flat data,
and exceptions become an `Except` over an explicit error taxonomy.
-/

/-- The Python exception classes that the excerpted code can raise (plus
`configurationError`, an error class named by the specification that the
code itself never raises). -/
inductive Err where
  | assertionError
  | keyError
  | indexError
  | valueError
  | typeError
  | configurationError
deriving DecidableEq, Repr

instance {ε α : Type _} [DecidableEq ε] [DecidableEq α] : DecidableEq (Except ε α) :=
  fun x y =>
    match x, y with
    | .ok a, .ok b =>
      if h : a = b then .isTrue (by rw [h]) else .isFalse (by intro he; cases he; exact h rfl)
    | .error a, .error b =>
      if h : a = b then .isTrue (by rw [h]) else .isFalse (by intro he; cases he; exact h rfl)
    | .ok _, .error _ => .isFalse (by intro he; cases he)
    | .error _, .ok _ => .isFalse (by intro he; cases he)

/-- A dataset record: a Python dict from string keys to (numeric) values,
embedded as an association list. -/
abbrev Rec := List (String × ℚ)

/-- The key view of a record (`record.keys()`). -/
def keysOf (r : Rec) : List String := r.map Prod.fst

/-- Python `dict_keys` equality semantics: two key views are equal iff they
hold the same keys as sets. -/
def keySetEq (a b : List String) : Bool := a.all b.contains && b.all a.contains

namespace CombinedDataset

/-- `CombinedDataset.__init__` key loop: `for ds in datasets[1:]: if
ds[0].keys() != keys: raise KeyError(...)`.  Accessing `ds[0]` of an empty
dataset raises `IndexError`. -/
def checkKeys (keys0 : List String) : List (List Rec) → Except Err Unit
  | [] => .ok ()
  | ds :: rest =>
    match ds.head? with
    | none => .error .indexError
    | some r => if keySetEq (keysOf r) keys0 then checkKeys keys0 rest else .error .keyError

/-- `CombinedDataset.__init__`: requires at least 2 datasets (raising
`AssertionError` otherwise), then compares the key set of the first record
of every later dataset with that of `datasets[0][0]`, raising `KeyError`
on mismatch.  On success the object simply stores the dataset list. -/
def init (dss : List (List Rec)) : Except Err (List (List Rec)) :=
  if dss.length < 2 then .error .assertionError
  else
    match dss with
    | [] => .error .assertionError
    | d0 :: rest =>
      match d0.head? with
      | none => .error .indexError
      | some r0 =>
        match checkKeys (keysOf r0) rest with
        | .ok _ => .ok (d0 :: rest)
        | .error e => .error e

/-- `CombinedDataset.__len__`: the sum of the lengths of the datasets. -/
def len (dss : List (List Rec)) : Nat := (dss.map List.length).sum

/-- The loop body of `CombinedDataset.__getitem__`.  `start` and `e` carry
the Python locals `start` and `end`; each iteration does `end += len(ds)`,
returns `ds[idx - start]` when `start <= idx < end`, and otherwise advances
`start += end` (the cumulative end, exactly as the source does).  Falling
off the loop is Python's implicit `return None`, embedded as `none`. -/
def getitemAux (idx : Int) : List (List Rec) → Int → Int → Option Rec
  | [], _, _ => none
  | ds :: rest, start, e =>
    let e' := e + ds.length
    if start ≤ idx ∧ idx < e' then ds[(idx - start).toNat]?
    else getitemAux idx rest (start + e') e'

/-- `CombinedDataset.__getitem__(idx)` with `start = 0` and `end = 0`. -/
def getitem (dss : List (List Rec)) (idx : Int) : Option Rec :=
  getitemAux idx dss 0 0

end CombinedDataset

namespace CombinedDataset

/-- `checkKeys` succeeds exactly when every checked dataset is nonempty and
its first record's key set matches `keys0`; only first records are read. -/
theorem checkKeys_ok_iff (keys0 : List String) (dss : List (List Rec)) :
    checkKeys keys0 dss = .ok () ↔
      ∀ ds ∈ dss, ∃ r, ds.head? = some r ∧ keySetEq (keysOf r) keys0 = true := by
  induction dss with
  | nil => simp [checkKeys]
  | cons ds rest ih =>
    cases hh : ds.head? with
    | none => simp [checkKeys, hh]
    | some r =>
      by_cases hk : keySetEq (keysOf r) keys0 = true
      · simp [checkKeys, hh, hk, ih]
      · simp [checkKeys, hh, hk]

/-- When every checked dataset is nonempty, a mismatching first record makes
`checkKeys` fail with `KeyError`. -/
theorem checkKeys_mismatch (keys0 : List String) (dss : List (List Rec))
    (hne : ∀ ds ∈ dss, ds ≠ [])
    (hbad : ∃ ds ∈ dss, keySetEq (keysOf (ds.headD [])) keys0 = false) :
    checkKeys keys0 dss = .error .keyError := by
  induction dss with
  | nil => simp at hbad
  | cons ds rest ih =>
    have hdne : ds ≠ [] := hne ds (by simp)
    obtain ⟨r, hr⟩ : ∃ r, ds.head? = some r := by
      cases ds with
      | nil => exact absurd rfl hdne
      | cons a l => exact ⟨a, rfl⟩
    have hhd : ds.headD ([] : Rec) = r := by
      cases ds with
      | nil => simp at hr
      | cons a l => simpa using hr
    by_cases hk : keySetEq (keysOf r) keys0 = true
    · have hbad' : ∃ d ∈ rest, keySetEq (keysOf (d.headD [])) keys0 = false := by
        rcases hbad with ⟨d, hd, hdk⟩
        rcases List.mem_cons.mp hd with h | h
        · subst h; rw [hhd] at hdk; rw [hk] at hdk; cases hdk
        · exact ⟨d, h, hdk⟩
      have := ih (fun d hd => hne d (List.mem_cons_of_mem _ hd)) hbad'
      simp [checkKeys, hr, hk, this]
    · simp [checkKeys, hr, hk]

end CombinedDataset

/-- A key view is set-equal to itself. -/
theorem keySetEq_refl (a : List String) : keySetEq a a = true := by
  simp [keySetEq, List.all_eq_true]

namespace CombinedDataset

/-- C6 (amended): constructing with fewer than 2 sources fails with an
`AssertionError` (not a `ConfigurationError`); with nonempty sources whose
first-record key sets all match the first source's first record, the
construction succeeds (later records are never inspected); if some source's
first record has a mismatching key set, construction fails with `KeyError`
(a `LookupError` subclass). -/
theorem init_behavior (dss : List (List Rec)) :
    (dss.length < 2 → init dss = .error .assertionError)
    ∧ (2 ≤ dss.length → (∀ ds ∈ dss, ds ≠ []) →
        ((∀ ds ∈ dss,
            keySetEq (keysOf (ds.headD [])) (keysOf ((dss.headD []).headD [])) = true) →
          init dss = .ok dss)
        ∧ ((∃ ds ∈ dss,
            keySetEq (keysOf (ds.headD [])) (keysOf ((dss.headD []).headD [])) = false) →
          init dss = .error .keyError)) := by
  constructor
  · intro h
    unfold init
    rw [if_pos h]
  · intro hlen hne
    cases dss with
    | nil => simp at hlen
    | cons d0 rest =>
      have hd0ne : d0 ≠ [] := hne d0 (by simp)
      obtain ⟨r0, hr0⟩ : ∃ r, d0.head? = some r := by
        cases d0 with
        | nil => exact absurd rfl hd0ne
        | cons a l => exact ⟨a, rfl⟩
      have hd0hd : d0.headD ([] : Rec) = r0 := by
        cases d0 with
        | nil => simp at hr0
        | cons a l => simpa using hr0
      have hnlt : ¬ (d0 :: rest).length < 2 := by omega
      constructor
      · intro hall
        have hok : checkKeys (keysOf r0) rest = .ok () := by
          rw [checkKeys_ok_iff]
          intro ds hds
          have hdsne : ds ≠ [] := hne ds (List.mem_cons_of_mem _ hds)
          obtain ⟨r, hr⟩ : ∃ r, ds.head? = some r := by
            cases ds with
            | nil => exact absurd rfl hdsne
            | cons a l => exact ⟨a, rfl⟩
          refine ⟨r, hr, ?_⟩
          have := hall ds (List.mem_cons_of_mem _ hds)
          simp only [List.headD_cons] at this
          rw [hd0hd] at this
          cases ds with
          | nil => simp at hr
          | cons a l =>
            simp only [List.head?_cons, Option.some.injEq] at hr
            subst hr
            simpa using this
        unfold init
        rw [if_neg hnlt]
        simp [hr0, hok]
      · intro hbad
        have hbad' : ∃ ds ∈ rest, keySetEq (keysOf (ds.headD [])) (keysOf r0) = false := by
          rcases hbad with ⟨ds, hds, hdk⟩
          simp only [List.headD_cons] at hdk
          rw [hd0hd] at hdk
          rcases List.mem_cons.mp hds with h | h
          · subst h
            rw [hd0hd, keySetEq_refl] at hdk
            cases hdk
          · exact ⟨ds, h, hdk⟩
        have herr : checkKeys (keysOf r0) rest = .error .keyError :=
          checkKeys_mismatch _ _ (fun d hd => hne d (List.mem_cons_of_mem _ hd)) hbad'
        unfold init
        rw [if_neg hnlt]
        simp [hr0, herr]

/-- C6 counterexample: a single-source construction raises `AssertionError`,
which is not the `ConfigurationError` the claim names. -/
theorem init_single_source_not_configurationError :
    init [[[("x", (1 : ℚ))]]] = .error .assertionError
    ∧ Err.assertionError ≠ Err.configurationError := by
  decide

/-- C6 witness: the amended behavior at concrete inputs — one source is an
`AssertionError`; matching first-record keys succeed even though a later
record of the second source has different keys; mismatched first-record keys
give `KeyError`. -/
theorem init_behavior_witness :
    (init [[[("x", (1 : ℚ))]]] = .error .assertionError)
    ∧ (init [[[("x", (1 : ℚ))]], [[("x", 2)], [("y", 3)]]]
        = .ok [[[("x", 1)]], [[("x", 2)], [("y", 3)]]])
    ∧ (init [[[("x", (1 : ℚ))]], [[("y", 2)]]] = .error .keyError) :=
  ⟨(init_behavior _).1 (by decide),
   ((init_behavior _).2 (by decide) (by decide)).1 (by decide),
   ((init_behavior _).2 (by decide) (by decide)).2 (by decide)⟩

/-- C1: the offset bookkeeping bug.  For three singleton sources the
composite has length 3 and flattening has a record at position 2, but
`__getitem__(2)` matches no source window (after the second iteration
`start` has advanced to `1 + (1 + 2) = 3 > 2`) and falls off the loop,
returning Python `None`. -/
theorem getitem_offset_bug :
    init [[[("a", (1 : ℚ))]], [[("a", 2)]], [[("a", 3)]]]
      = .ok [[[("a", 1)]], [[("a", 2)]], [[("a", 3)]]]
    ∧ len [[[("a", (1 : ℚ))]], [[("a", 2)]], [[("a", 3)]]] = 3
    ∧ (List.flatten [[[("a", (1 : ℚ))]], [[("a", 2)]], [[("a", 3)]]])[2]? = some [("a", 3)]
    ∧ getitem [[[("a", (1 : ℚ))]], [[("a", 2)]], [[("a", 3)]]] 2 = none := by
  decide

/-- C7: an index at or beyond the composite length (or negative) makes
`__getitem__` fall off its loop and return Python `None` — a value, not an
`IndexError`. -/
theorem getitem_out_of_range_returns_none :
    len [[[("a", (1 : ℚ))]], [[("a", 2)]]] = 2
    ∧ getitem [[[("a", (1 : ℚ))]], [[("a", 2)]]] 2 = none
    ∧ getitem [[[("a", (1 : ℚ))]], [[("a", 2)]]] 5 = none
    ∧ getitem [[[("a", (1 : ℚ))]], [[("a", 2)]]] (-1) = none := by
  decide

end CombinedDataset

/-- A backend tensor batch, embedded as its list of rows (row content is
irrelevant to the collector, so a row is a single rational). -/
abbrev Tensor := List ℚ

namespace Saliency

/-- `self.samples[mode]`: either the accumulating `defaultdict(list)`
mapping each key to its pending list of batches, or a plain finalized dict
mapping each key to a single tensor. -/
inductive SampleState where
  | collecting (buf : List (String × List Tensor))
  | finalized (buf : List (String × Tensor))
deriving DecidableEq, Repr

/-- Python dict truthiness: a dict is truthy iff it has at least one key. -/
def dictTruthy : SampleState → Bool
  | .collecting buf => !buf.isEmpty
  | .finalized buf => !buf.isEmpty

/-- The per-mode slice of the trace's state: `samples[mode]`,
`n_found[mode]` and `n_required[mode]`.  Modes never interact, so the state
machine is embedded for a single mode. -/
structure SalState where
  samples : SampleState
  n_found : Nat
  n_required : Nat
deriving DecidableEq, Repr

/-- `self.samples[mode][key].append(t)` on a `defaultdict(list)`: append to
the existing entry, or materialize the default empty list and append. -/
def ddAppend (buf : List (String × List Tensor)) (key : String) (t : Tensor) :
    List (String × List Tensor) :=
  if buf.any (fun p => p.1 = key) then
    buf.map (fun p => if p.1 = key then (p.1, p.2 ++ [t]) else p)
  else buf ++ [(key, [t])]

/-- `__init__` with an integer `samples` argument: empty accumulator,
`n_found = 0`, `n_required = samples`. -/
def initInt (samples : Nat) : SalState := ⟨.collecting [], 0, samples⟩

/-- `__init__` with `samples = None`: empty accumulator and both counters
zero (single-batch mode). -/
def initNone : SalState := ⟨.collecting [], 0, 0⟩

/-- `__init__` with a user-supplied `{key: value}` dict for `samples`. -/
def initDict (buf : List (String × Tensor)) : SalState := ⟨.finalized buf, 0, 0⟩

/-- `Saliency.on_batch_end`: when the mode's buffer is falsy or fewer than
`n_required` rows were found, append `data[key]` to every tracked key's
pending list and add the last key's batch length to `n_found`.  If that
branch is taken while the buffer is a plain (finalized) dict, Python's
`samples[mode][key].append` raises (`KeyError` on the reachable empty-dict
case); with no tracked keys the loop body never runs. -/
def on_batch_end (inputs : List String) (data : String → Tensor) (st : SalState) :
    Except Err SalState :=
  if !dictTruthy st.samples || st.n_found < st.n_required then
    match st.samples with
    | .collecting buf =>
      let buf' := inputs.foldl (fun b k => ddAppend b k (data k)) buf
      let n_samples := match inputs.getLast? with
        | some k => (data k).length
        | none => 0
      .ok ⟨.collecting buf', st.n_found + n_samples, st.n_required⟩
    | .finalized _ => if inputs.isEmpty then .ok st else .error .keyError
  else .ok st

/-- The sample-management prefix of `Saliency.on_epoch_end`: when
`n_found[mode] > 0`, finalize the buffer — `concat(val)[:n_required]` per
key when `n_required > 0`, else `val[0]` per key — and zero both counters;
otherwise leave the state untouched.  (Finalizing a buffer that is already
a plain dict would make `concat`/`val[0]` act on a tensor instead of a
list of tensors — a type error; that configuration is unreachable, since
every finalization zeroes `n_found`.) -/
def on_epoch_end (st : SalState) : Except Err SalState :=
  if st.n_found > 0 then
    match st.samples with
    | .collecting buf =>
      if st.n_required > 0 then
        .ok ⟨.finalized (buf.map (fun p => (p.1, p.2.flatten.take st.n_required))), 0, 0⟩
      else
        .ok ⟨.finalized (buf.map (fun p => (p.1, p.2.headD []))), 0, 0⟩
    | .finalized _ => .error .typeError
  else .ok st

end Saliency

namespace Saliency

/-- Appending into a `defaultdict(list)` never yields an empty dict. -/
theorem ddAppend_ne_nil (buf : List (String × List Tensor)) (k : String) (t : Tensor) :
    ddAppend buf k t ≠ [] := by
  unfold ddAppend
  by_cases h : buf.any (fun p => p.1 = k) = true
  · simp only [h, if_true]
    intro hc
    rw [List.map_eq_nil_iff] at hc
    subst hc
    simp at h
  · simp only [h]
    simp

/-- A batch append over at least one tracked key leaves the dict nonempty. -/
theorem foldl_ddAppend_ne_nil (data : String → Tensor) :
    ∀ (inputs : List String) (buf : List (String × List Tensor)),
      buf ≠ [] ∨ inputs ≠ [] →
      inputs.foldl (fun b k => ddAppend b k (data k)) buf ≠ [] := by
  intro inputs
  induction inputs with
  | nil =>
    intro buf h
    simpa using h.resolve_right (by simp)
  | cons k rest ih =>
    intro buf _
    simp only [List.foldl_cons]
    exact ih _ (Or.inl (ddAppend_ne_nil buf k (data k)))

/-- Folding a batch into a buffer that already holds every tracked key (with
distinct keys) appends the batch column to each tracked entry. -/
theorem foldl_ddAppend_update (data : String → Tensor) :
    ∀ (inputs : List String) (buf : List (String × List Tensor)),
      inputs.Nodup → (∀ k ∈ inputs, buf.any (fun p => p.1 = k) = true) →
      inputs.foldl (fun b k => ddAppend b k (data k)) buf
        = buf.map (fun p => if p.1 ∈ inputs then (p.1, p.2 ++ [data p.1]) else p) := by
  intro inputs
  induction inputs with
  | nil =>
    intro buf _ _
    simp
  | cons k rest ih =>
    intro buf hnd hmem
    have hk : buf.any (fun p => p.1 = k) = true := hmem k (by simp)
    have hknr : k ∉ rest := (List.nodup_cons.mp hnd).1
    simp only [List.foldl_cons]
    rw [ddAppend, if_pos hk]
    rw [ih _ (List.nodup_cons.mp hnd).2 ?hmem]
    case hmem =>
      intro k' hk'
      rw [List.any_map]
      have := hmem k' (List.mem_cons_of_mem _ hk')
      rw [List.any_eq_true] at this ⊢
      rcases this with ⟨p, hp, hpk⟩
      refine ⟨p, hp, ?_⟩
      simp only [Function.comp_apply]
      have hfst : (if p.1 = k then (p.1, p.2 ++ [data k]) else p).1 = p.1 := by
        by_cases hpk2 : p.1 = k <;> simp [hpk2]
      rw [hfst]
      exact hpk
    rw [List.map_map]
    apply List.map_congr_left
    intro p _
    simp only [Function.comp_apply]
    by_cases h1 : p.1 = k
    · have h2 : p.1 ∉ rest := by rw [h1]; exact hknr
      simp [h1, h2, hknr]
    · by_cases h2 : p.1 ∈ rest
      · simp [h1, h2]
      · simp [h1, h2]

/-- Folding a batch into a buffer containing none of the (distinct) tracked
keys appends one fresh singleton entry per key, in key order. -/
theorem foldl_ddAppend_fresh (data : String → Tensor) :
    ∀ (inputs : List String) (buf : List (String × List Tensor)),
      inputs.Nodup → (∀ k ∈ inputs, buf.any (fun p => p.1 = k) = false) →
      inputs.foldl (fun b k => ddAppend b k (data k)) buf
        = buf ++ inputs.map (fun k => (k, [data k])) := by
  intro inputs
  induction inputs with
  | nil =>
    intro buf _ _
    simp
  | cons k rest ih =>
    intro buf hnd hfresh
    have hk : buf.any (fun p => p.1 = k) = false := hfresh k (by simp)
    have hknr : k ∉ rest := (List.nodup_cons.mp hnd).1
    simp only [List.foldl_cons]
    rw [ddAppend, if_neg (by simp [hk])]
    rw [ih _ (List.nodup_cons.mp hnd).2 ?hfresh]
    case hfresh =>
      intro k' hk'
      have h1 := hfresh k' (List.mem_cons_of_mem _ hk')
      rw [List.any_append, h1]
      simp only [Bool.false_or]
      have : k ≠ k' := fun he => hknr (he ▸ hk')
      simp [this]
    simp

end Saliency

namespace Saliency

/-- C2: in size-capped mode with `n_required = 3`, two batches of 2 rows per
key bring `n_found` to `4 ≥ 3`, and the epoch-end finalization leaves, for
every tracked key, exactly the first 3 rows of the two batches concatenated
in arrival order. -/
theorem collector_capped_three (inputs : List String) (d1 d2 : String → Tensor)
    (hne : inputs ≠ []) (hnd : inputs.Nodup)
    (h1 : ∀ k ∈ inputs, (d1 k).length = 2) (h2 : ∀ k ∈ inputs, (d2 k).length = 2) :
    ((on_batch_end inputs d1 (initInt 3)).bind (on_batch_end inputs d2)).bind on_epoch_end
      = .ok ⟨.finalized (inputs.map (fun k => (k, (d1 k ++ d2 k).take 3))), 0, 0⟩
    ∧ ∀ k ∈ inputs, ((d1 k ++ d2 k).take 3).length = 3 := by
  obtain ⟨kl, hkl, hklm⟩ : ∃ k, inputs.getLast? = some k ∧ k ∈ inputs :=
    ⟨inputs.getLast hne, List.getLast?_eq_getLast _ hne, List.getLast_mem hne⟩
  have hfold1 : inputs.foldl (fun b k => ddAppend b k (d1 k)) []
      = inputs.map (fun k => (k, [d1 k])) := by
    have := foldl_ddAppend_fresh d1 inputs [] hnd (fun k _ => by simp)
    simpa using this
  have hb1 : on_batch_end inputs d1 (initInt 3)
      = .ok ⟨.collecting (inputs.map (fun k => (k, [d1 k]))), 2, 3⟩ := by
    simp only [on_batch_end, initInt, dictTruthy]
    rw [hfold1, hkl]
    simp [h1 kl hklm]
  have hmem2 : ∀ k ∈ inputs,
      ((inputs.map (fun k' => (k', [d1 k']))).any (fun p => p.1 = k)) = true := by
    intro k hk
    rw [List.any_eq_true]
    exact ⟨(k, [d1 k]), List.mem_map_of_mem _ hk, by simp⟩
  have hfold2 : inputs.foldl (fun b k => ddAppend b k (d2 k))
        (inputs.map (fun k => (k, [d1 k])))
      = inputs.map (fun k => (k, [d1 k, d2 k])) := by
    rw [foldl_ddAppend_update d2 inputs _ hnd hmem2]
    rw [List.map_map]
    apply List.map_congr_left
    intro k hk
    simp [hk]
  have hb2 : on_batch_end inputs d2 ⟨.collecting (inputs.map (fun k => (k, [d1 k]))), 2, 3⟩
      = .ok ⟨.collecting (inputs.map (fun k => (k, [d1 k, d2 k]))), 4, 3⟩ := by
    simp only [on_batch_end, dictTruthy]
    rw [hfold2, hkl]
    simp [h2 kl hklm]
  have hee : on_epoch_end ⟨.collecting (inputs.map (fun k => (k, [d1 k, d2 k]))), 4, 3⟩
      = .ok ⟨.finalized (inputs.map (fun k => (k, (d1 k ++ d2 k).take 3))), 0, 0⟩ := by
    simp only [on_epoch_end]
    rw [List.map_map]
    simp
  constructor
  · rw [hb1]
    simp only [Except.bind]
    rw [hb2]
    simp only [Except.bind]
    exact hee
  · intro k hk
    simp [List.length_take, h1 k hk, h2 k hk]

/-- C2 witness: one tracked key, batches `[1,2]` then `[3,4]`, finalized to
the first three rows `[1,2,3]`. -/
theorem collector_capped_three_witness :
    ((on_batch_end ["x"] (fun _ => ([1, 2] : Tensor)) (initInt 3)).bind
        (on_batch_end ["x"] (fun _ => ([3, 4] : Tensor)))).bind on_epoch_end
      = .ok ⟨.finalized [("x", [1, 2, 3])], 0, 0⟩ := by
  have h := (collector_capped_three ["x"] (fun _ => ([1, 2] : Tensor))
    (fun _ => ([3, 4] : Tensor)) (by decide) (by decide)
    (by intro k hk; rfl) (by intro k hk; rfl)).1
  simpa using h

/-- C3: in single-batch mode (`n_required = 0`, empty falsy buffer), the
first batch is appended; the second arrives with a truthy buffer and
`n_found ≥ n_required`, so it is discarded; epoch end keeps exactly the
first appended batch per key. -/
theorem collector_single_batch (inputs : List String) (d1 d2 : String → Tensor)
    (hne : inputs ≠ []) (hnd : inputs.Nodup)
    (hrows : ∀ k ∈ inputs, 0 < (d1 k).length) :
    ((on_batch_end inputs d1 initNone).bind (on_batch_end inputs d2)).bind on_epoch_end
      = .ok ⟨.finalized (inputs.map (fun k => (k, d1 k))), 0, 0⟩ := by
  obtain ⟨kl, hkl, hklm⟩ : ∃ k, inputs.getLast? = some k ∧ k ∈ inputs :=
    ⟨inputs.getLast hne, List.getLast?_eq_getLast _ hne, List.getLast_mem hne⟩
  have hfold1 : inputs.foldl (fun b k => ddAppend b k (d1 k)) []
      = inputs.map (fun k => (k, [d1 k])) := by
    have := foldl_ddAppend_fresh d1 inputs [] hnd (fun k _ => by simp)
    simpa using this
  have hb1 : on_batch_end inputs d1 initNone
      = .ok ⟨.collecting (inputs.map (fun k => (k, [d1 k]))), (d1 kl).length, 0⟩ := by
    simp only [on_batch_end, initNone, dictTruthy]
    rw [hfold1, hkl]
    simp
  have hbufne : inputs.map (fun k => (k, [d1 k])) ≠ [] := by
    simpa using hne
  have hb2 : on_batch_end inputs d2
        ⟨.collecting (inputs.map (fun k => (k, [d1 k]))), (d1 kl).length, 0⟩
      = .ok ⟨.collecting (inputs.map (fun k => (k, [d1 k]))), (d1 kl).length, 0⟩ := by
    simp only [on_batch_end, dictTruthy]
    rw [if_neg]
    simp [List.isEmpty_iff, hbufne]
  have hee : on_epoch_end ⟨.collecting (inputs.map (fun k => (k, [d1 k]))), (d1 kl).length, 0⟩
      = .ok ⟨.finalized (inputs.map (fun k => (k, d1 k))), 0, 0⟩ := by
    simp only [on_epoch_end]
    rw [if_pos (by simpa using hrows kl hklm)]
    simp only [Nat.lt_irrefl, if_false]
    rw [List.map_map]
    simp
  rw [hb1]
  simp only [Except.bind]
  rw [hb2]
  simp only [Except.bind]
  exact hee

/-- C3 witness: one tracked key, batches `[5,6]` then `[7,8]`; the finalized
buffer is exactly the first batch. -/
theorem collector_single_batch_witness :
    ((on_batch_end ["x"] (fun _ => ([5, 6] : Tensor)) initNone).bind
        (on_batch_end ["x"] (fun _ => ([7, 8] : Tensor)))).bind on_epoch_end
      = .ok ⟨.finalized [("x", [5, 6])], 0, 0⟩ := by
  have h := collector_single_batch ["x"] (fun _ => ([5, 6] : Tensor))
    (fun _ => ([7, 8] : Tensor)) (by decide) (by decide) (by intro k hk; simp)
  simpa using h

end Saliency

namespace Saliency

/-- Reachability invariant of the collector: whenever `n_found[mode] > 0`,
the mode's buffer is still the accumulating `defaultdict` and is nonempty
(rows are only ever counted by the loop that also inserts their keys). -/
def salInvB (st : SalState) : Bool :=
  !(decide (0 < st.n_found)) ||
    (match st.samples with
     | .collecting buf => !buf.isEmpty
     | .finalized _ => false)

/-- The invariant holds for every state `__init__` can produce. -/
theorem salInvB_init (n : Nat) (buf : List (String × Tensor)) :
    salInvB (initInt n) = true ∧ salInvB initNone = true ∧ salInvB (initDict buf) = true := by
  refine ⟨?_, ?_, ?_⟩ <;> simp [salInvB, initInt, initNone, initDict]

/-- `on_batch_end` preserves the invariant. -/
theorem salInvB_on_batch_end (inputs : List String) (data : String → Tensor)
    (st st' : SalState) (hinv : salInvB st = true)
    (h : on_batch_end inputs data st = .ok st') : salInvB st' = true := by
  unfold on_batch_end at h
  by_cases hcond : (!dictTruthy st.samples || decide (st.n_found < st.n_required)) = true
  · rw [if_pos hcond] at h
    cases hs : st.samples with
    | collecting buf =>
      rw [hs] at h
      simp only [Except.ok.injEq] at h
      subst h
      unfold salInvB
      simp only
      cases inputs with
      | nil =>
        simp only [List.foldl_nil, List.getLast?_nil]
        unfold salInvB at hinv
        rw [hs] at hinv
        simpa using hinv
      | cons k rest =>
        have hne := foldl_ddAppend_ne_nil data (k :: rest) buf (Or.inr (by simp))
        have hne' : List.foldl (fun b k => ddAppend b k (data k)) (ddAppend buf k (data k)) rest
            ≠ [] := by
          simpa using hne
        simp [List.isEmpty_iff, hne']
    | finalized buf =>
      rw [hs] at h
      by_cases hi : inputs.isEmpty
      · rw [if_pos hi] at h
        simp only [Except.ok.injEq] at h
        subst h
        exact hinv
      · rw [if_neg hi] at h
        cases h
  · rw [if_neg hcond] at h
    simp only [Except.ok.injEq] at h
    subst h
    exact hinv

/-- `on_epoch_end` preserves the invariant. -/
theorem salInvB_on_epoch_end (st st' : SalState) (hinv : salInvB st = true)
    (h : on_epoch_end st = .ok st') : salInvB st' = true := by
  unfold on_epoch_end at h
  split at h
  · split at h
    · split at h
      · simp only [Except.ok.injEq] at h
        subst h
        simp [salInvB]
      · simp only [Except.ok.injEq] at h
        subst h
        simp [salInvB]
    · cases h
  · simp only [Except.ok.injEq] at h
    subst h
    exact hinv

/-- C4: at epoch end with a positive found-count, both counters are zeroed
and every later `on_batch_end` leaves the state (in particular the
finalized buffer) untouched; at epoch end with a zero found-count, the
state (in particular the prior buffer) is left untouched. -/
theorem collector_reset_and_stable (st : SalState) (hinv : salInvB st = true) :
    (0 < st.n_found →
      ∃ st', on_epoch_end st = .ok st'
        ∧ st'.n_found = 0 ∧ st'.n_required = 0
        ∧ ∀ (inputs : List String) (data : String → Tensor),
            on_batch_end inputs data st' = .ok st')
    ∧ (st.n_found = 0 → on_epoch_end st = .ok st) := by
  constructor
  · intro hf
    obtain ⟨buf, hs, hbne⟩ : ∃ buf, st.samples = .collecting buf ∧ buf ≠ [] := by
      unfold salInvB at hinv
      rw [Bool.or_eq_true] at hinv
      rcases hinv with h | h
      · simp [hf] at h
      · cases hs : st.samples with
        | collecting buf =>
          rw [hs] at h
          exact ⟨buf, rfl, by simpa [List.isEmpty_iff] using h⟩
        | finalized buf =>
          rw [hs] at h
          cases h
    by_cases hr : 0 < st.n_required
    · refine ⟨⟨.finalized (buf.map (fun p => (p.1, p.2.flatten.take st.n_required))), 0, 0⟩,
        ?_, rfl, rfl, ?_⟩
      · simp [on_epoch_end, hf, hs, hr]
      · intro inputs data
        have hne : buf.map (fun p => (p.1, p.2.flatten.take st.n_required)) ≠ [] := by
          simpa using hbne
        simp [on_batch_end, dictTruthy, List.isEmpty_iff, hne]
    · refine ⟨⟨.finalized (buf.map (fun p => (p.1, p.2.headD []))), 0, 0⟩, ?_, rfl, rfl, ?_⟩
      · simp [on_epoch_end, hf, hs, hr]
      · intro inputs data
        have hne : buf.map (fun p => (p.1, p.2.headD [])) ≠ [] := by
          simpa using hbne
        simp only [on_batch_end, dictTruthy]
        rw [if_neg (by simp [List.isEmpty_iff, hne, hbne])]
  · intro hf
    simp [on_epoch_end, hf]

/-- C4 witness: a collecting state with 2 rows found and none required is
finalized with both counters zero and is inert afterwards; a state with
nothing found passes through epoch end unchanged. -/
theorem collector_reset_and_stable_witness :
    (∃ st', on_epoch_end ⟨.collecting [("x", [[5, 6]].flatten :: [])], 2, 0⟩ = .ok st'
        ∧ st'.n_found = 0 ∧ st'.n_required = 0
        ∧ ∀ (inputs : List String) (data : String → Tensor),
            on_batch_end inputs data st' = .ok st')
    ∧ on_epoch_end ⟨.finalized [("x", [5, 6])], 0, 0⟩
        = .ok ⟨.finalized [("x", [5, 6])], 0, 0⟩ :=
  ⟨(collector_reset_and_stable ⟨.collecting [("x", [[5, 6]].flatten :: [])], 2, 0⟩
      (by decide)).1 (by decide),
   (collector_reset_and_stable ⟨.finalized [("x", [5, 6])], 0, 0⟩ (by decide)).2 rfl⟩

end Saliency

namespace Saliency

/-- `fe.backend.reduce_min` with no axis: the minimum over every element of
the tensor. -/
def reduce_min (t : Tensor) : ℚ :=
  match t with
  | [] => 0
  | x :: xs => xs.foldl min x

/-- `fe.backend.reduce_max` with no axis: the maximum over every element of
the tensor. -/
def reduce_max (t : Tensor) : ℚ :=
  match t with
  | [] => 0
  | x :: xs => xs.foldl max x

/-- The blend in `Saliency.on_epoch_end`:
`0.3 * (sal[outkey] * (val - min_val) + min_val) + 0.3 * val + 0.4 * sal[outkey] * diff + min_val`
with `min_val = reduce_min(val)` and `diff = reduce_max(val) - min_val`,
applied elementwise over the mask and the sample tensor. -/
def vizBlend (mask val : Tensor) : Tensor :=
  let min_val := reduce_min val
  let diff := reduce_max val - min_val
  List.zipWith (fun m v => 0.3 * (m * (v - min_val) + min_val) + 0.3 * v + 0.4 * m * diff + min_val)
    mask val

/-- The visualization-args loop of `Saliency.on_epoch_end`: for every
sample entry whose key is not the class key and every output key, write the
entry `"{key} {outkey}" ↦ blend(sal[outkey], val)`. -/
def blendArgs (class_key : Option String) (outputs : List String) (sal : String → Tensor)
    (samples : List (String × Tensor)) : List (String × Tensor) :=
  ((samples.filter (fun p => some p.1 ≠ class_key)).map
    (fun p => outputs.map (fun ok => (p.1 ++ " " ++ ok, vizBlend (sal ok) p.2)))).flatten

/-- Elementwise view of `zipWith` at an in-range index. -/
theorem zipWith_getElem? (f : ℚ → ℚ → ℚ) (a b : List ℚ) (i : Nat)
    (h1 : i < a.length) (h2 : i < b.length) :
    (List.zipWith f a b)[i]? = some (f (a.getD i 0) (b.getD i 0)) := by
  induction a generalizing b i with
  | nil => simp at h1
  | cons x xs ih =>
    cases b with
    | nil => simp at h2
    | cons y ys =>
      cases i with
      | zero => simp
      | succ j =>
        simp only [List.zipWith_cons_cons, List.getElem?_cons_succ, List.getD_cons_succ]
        exact ih ys j (by simpa using h1) (by simpa using h2)

/-- C5: for every sample entry `(key, val)` with `key` not the class key and
every output key, the epoch-end args hold the blended entry, and each of its
elements equals
`0.3*(mask*(value−min)+min) + 0.3*value + 0.4*mask*(max−min) + min`
where `min`/`max` are reduced over the full sample tensor. -/
theorem blend_formula (class_key : Option String) (outputs : List String)
    (sal : String → Tensor) (samples : List (String × Tensor))
    (key : String) (val : Tensor) (hmem : (key, val) ∈ samples) (hck : some key ≠ class_key)
    (outkey : String) (hout : outkey ∈ outputs) (i : Nat)
    (h1 : i < (sal outkey).length) (h2 : i < val.length) :
    (key ++ " " ++ outkey, vizBlend (sal outkey) val)
        ∈ blendArgs class_key outputs sal samples
    ∧ (vizBlend (sal outkey) val)[i]?
        = some (0.3 * ((sal outkey).getD i 0 * (val.getD i 0 - reduce_min val) + reduce_min val)
            + 0.3 * val.getD i 0
            + 0.4 * (sal outkey).getD i 0 * (reduce_max val - reduce_min val)
            + reduce_min val) := by
  constructor
  · unfold blendArgs
    rw [List.mem_flatten]
    refine ⟨outputs.map (fun ok => (key ++ " " ++ ok, vizBlend (sal ok) val)), ?_, ?_⟩
    · rw [List.mem_map]
      refine ⟨(key, val), ?_, rfl⟩
      rw [List.mem_filter]
      exact ⟨hmem, by simpa using hck⟩
    · rw [List.mem_map]
      exact ⟨outkey, hout, rfl⟩
  · unfold vizBlend
    exact zipWith_getElem? _ (sal outkey) val i h1 h2

/-- C5 witness: a two-element sample `[2, 4]` with mask `[1, 0]` at index 0;
`min = 2`, `max = 4`, so the blend is `0.3*(1*(2-2)+2) + 0.3*2 + 0.4*1*2 + 2 = 4`. -/
theorem blend_formula_witness :
    ("img saliency", vizBlend [1, 0] [2, 4])
        ∈ blendArgs (some "y") ["saliency"] (fun _ => [1, 0]) [("img", [2, 4])]
    ∧ (vizBlend [1, 0] [2, 4])[0]?
        = some (0.3 * (([1, 0] : Tensor).getD 0 0 * (([2, 4] : Tensor).getD 0 0 - reduce_min [2, 4])
              + reduce_min [2, 4])
            + 0.3 * ([2, 4] : Tensor).getD 0 0
            + 0.4 * ([1, 0] : Tensor).getD 0 0 * (reduce_max [2, 4] - reduce_min [2, 4])
            + reduce_min [2, 4]) := by
  have h := blend_formula (some "y") ["saliency"] (fun _ => ([1, 0] : Tensor))
    [("img", [2, 4])] "img" [2, 4] (by simp) (by simp) "saliency" (by simp) 0
    (by simp) (by simp)
  simpa using h

end Saliency

/-- A numpy array: its shape and its elements in row-major (C-order) flat
layout, as numpy stores them. -/
structure NDArray where
  shape : List Nat
  data : List ℚ
deriving DecidableEq, Repr

/-- Whether a multi-index is a valid index of the given shape (same rank,
every coordinate below its dimension). -/
def inBounds : List Nat → List Nat → Bool
  | [], [] => true
  | d :: ds, i :: is => decide (i < d) && inBounds ds is
  | _, _ => false

/-- The row-major flat offset of a multi-index within a shape. -/
def flatIndex : List Nat → List Nat → Nat
  | _ :: ds, i :: is => i * ds.prod + flatIndex ds is
  | _, _ => 0

/-- All multi-indices whose leading coordinate is below `d`, in row-major
order, given the row-major tail indices. -/
def idxBlocks (tails : List (List Nat)) : Nat → List (List Nat)
  | 0 => []
  | d + 1 => idxBlocks tails d ++ tails.map (fun is => d :: is)

/-- All multi-indices of a shape, in row-major order. -/
def indicesOf : List Nat → List (List Nat)
  | [] => [[]]
  | d :: ds => idxBlocks (indicesOf ds) d

/-- Element lookup at a multi-index (0 when out of the flat data range). -/
def ndGet (a : NDArray) (ix : List Nat) : ℚ := a.data.getD (flatIndex a.shape ix) 0

/-- The result of `np.pad(data, [(0, t_i - s_i)], 'constant')`: an array of
shape `t` holding the original value at every index valid for the source
shape and the pad value everywhere else (padding is appended only at the
high end of every axis). -/
def padCore (a : NDArray) (t : List Nat) (v : ℚ) : NDArray :=
  ⟨t, (indicesOf t).map (fun ix => if inBounds a.shape ix then ndGet a ix else v)⟩

/-- `pad_data(data, target_shape, pad_value)`: computes
`np.array(target_shape) - np.array(data.shape)` and pads by `(0, diff)` per
axis.  With equal ranks this is the elementwise difference (negative
entries make `np.pad` raise `ValueError`).  With a rank-1 `target_shape`
numpy broadcasts the single dimension across every source axis; any other
rank mismatch fails (`ValueError`), either in the broadcast subtraction or
in `np.pad`'s pad-width check. -/
def pad_data (a : NDArray) (t : List Nat) (v : ℚ) : Except Err NDArray :=
  if a.shape.length = t.length then
    if (a.shape.zip t).all (fun p => p.1 ≤ p.2) then .ok (padCore a t v)
    else .error .valueError
  else if t.length = 1 then
    if a.shape.all (fun d => d ≤ t.headD 0) then
      .ok (padCore a (a.shape.map (fun _ => t.headD 0)) v)
    else .error .valueError
  else .error .valueError

/-- `idxBlocks` holds `d` blocks of `tails.length` indices each. -/
theorem idxBlocks_length (tails : List (List Nat)) (d : Nat) :
    (idxBlocks tails d).length = d * tails.length := by
  induction d with
  | zero => simp [idxBlocks]
  | succ n ih => simp [idxBlocks, ih, Nat.succ_mul]

/-- `indicesOf s` enumerates exactly `s.prod` indices. -/
theorem indicesOf_length (s : List Nat) : (indicesOf s).length = s.prod := by
  induction s with
  | nil => simp [indicesOf]
  | cons d ds ih => simp [indicesOf, idxBlocks_length, ih]

/-- Position `i * tails.length + r` of `idxBlocks tails d` is the `r`-th
tail index prefixed with `i`. -/
theorem idxBlocks_getElem? (tails : List (List Nat)) (d i r : Nat)
    (hi : i < d) (hr : r < tails.length) :
    (idxBlocks tails d)[i * tails.length + r]? = (tails[r]?).map (fun is => i :: is) := by
  induction d with
  | zero => omega
  | succ n ih =>
    by_cases hin : i < n
    · have hlt : i * tails.length + r < (idxBlocks tails n).length := by
        rw [idxBlocks_length]
        have h1 : i + 1 ≤ n := hin
        calc i * tails.length + r < i * tails.length + tails.length := by omega
          _ = (i + 1) * tails.length := by ring
          _ ≤ n * tails.length := Nat.mul_le_mul_right _ h1
      rw [idxBlocks, List.getElem?_append, if_pos hlt]
      exact ih hin
    · have hieq : i = n := by omega
      subst hieq
      have hge : ¬ i * tails.length + r < (idxBlocks tails i).length := by
        rw [idxBlocks_length]
        omega
      rw [idxBlocks, List.getElem?_append, if_neg hge]
      rw [idxBlocks_length]
      have hsub : i * tails.length + r - i * tails.length = r := by omega
      rw [hsub, List.getElem?_map]

/-- A valid multi-index has a flat offset below the shape's element count. -/
theorem flatIndex_lt (s ix : List Nat) (h : inBounds s ix = true) :
    flatIndex s ix < s.prod := by
  induction s generalizing ix with
  | nil =>
    cases ix with
    | nil => simp [flatIndex]
    | cons i is => simp [inBounds] at h
  | cons d ds ih =>
    cases ix with
    | nil => simp [inBounds] at h
    | cons i is =>
      rw [inBounds, Bool.and_eq_true, decide_eq_true_eq] at h
      have hr := ih is h.2
      rw [flatIndex, List.prod_cons]
      calc i * ds.prod + flatIndex ds is < i * ds.prod + ds.prod := by omega
        _ = (i + 1) * ds.prod := by ring
        _ ≤ d * ds.prod := Nat.mul_le_mul_right _ h.1

/-- Row-major enumeration is inverse to the flat offset: the entry of
`indicesOf s` at position `flatIndex s ix` is `ix` itself, for valid `ix`. -/
theorem indicesOf_getElem? (s ix : List Nat) (h : inBounds s ix = true) :
    (indicesOf s)[flatIndex s ix]? = some ix := by
  induction s generalizing ix with
  | nil =>
    cases ix with
    | nil => simp [indicesOf, flatIndex]
    | cons i is => simp [inBounds] at h
  | cons d ds ih =>
    cases ix with
    | nil => simp [inBounds] at h
    | cons i is =>
      rw [inBounds, Bool.and_eq_true, decide_eq_true_eq] at h
      have hr : flatIndex ds is < (indicesOf ds).length := by
        rw [indicesOf_length]
        exact flatIndex_lt ds is h.2
      rw [flatIndex, indicesOf]
      have := idxBlocks_getElem? (indicesOf ds) d i (flatIndex ds is) h.1 ?hlen
      case hlen => exact hr
      rw [indicesOf_length] at this
      rw [this, ih is h.2]
      rfl

/-- Conversely, position `n < s.prod` of `indicesOf s` holds a valid index
whose flat offset is `n`. -/
theorem indicesOf_getElem_props (s : List Nat) (n : Nat) (h : n < s.prod) :
    ∃ ix, (indicesOf s)[n]? = some ix ∧ inBounds s ix = true ∧ flatIndex s ix = n := by
  induction s generalizing n with
  | nil =>
    have hn : n = 0 := by simpa using h
    subst hn
    exact ⟨[], by simp [indicesOf], rfl, rfl⟩
  | cons d ds ih =>
    rw [List.prod_cons] at h
    have hB : 0 < ds.prod := by
      rcases Nat.eq_zero_or_pos ds.prod with h0 | h0
      · rw [h0, Nat.mul_zero] at h
        omega
      · exact h0
    have h' : n < ds.prod * d := by
      rw [Nat.mul_comm]
      exact h
    have hi : n / ds.prod < d := Nat.div_lt_of_lt_mul h'
    have hrlt : n % ds.prod < ds.prod := Nat.mod_lt _ hB
    have hdm : n / ds.prod * ds.prod + n % ds.prod = n := by
      rw [Nat.mul_comm]
      exact Nat.div_add_mod n ds.prod
    obtain ⟨is, h1, h2, h3⟩ := ih (n % ds.prod) hrlt
    refine ⟨n / ds.prod :: is, ?_, ?_, ?_⟩
    · rw [indicesOf]
      have hblk := idxBlocks_getElem? (indicesOf ds) d (n / ds.prod) (n % ds.prod) hi
        (by rw [indicesOf_length]; exact hrlt)
      rw [indicesOf_length, hdm] at hblk
      rw [hblk, h1]
      rfl
    · rw [inBounds, Bool.and_eq_true, decide_eq_true_eq]
      exact ⟨hi, h2⟩
    · rw [flatIndex, h3]
      exact hdm

/-- Growing every dimension preserves validity of an index. -/
theorem inBounds_mono (s t ix : List Nat) (hlen : s.length = t.length)
    (hle : (s.zip t).all (fun p => p.1 ≤ p.2) = true) (h : inBounds s ix = true) :
    inBounds t ix = true := by
  induction s generalizing t ix with
  | nil =>
    cases t with
    | nil => exact h
    | cons b bs => simp at hlen
  | cons a as ih =>
    cases t with
    | nil => simp at hlen
    | cons b bs =>
      cases ix with
      | nil => simp [inBounds] at h
      | cons i is =>
        rw [List.zip_cons_cons, List.all_cons, Bool.and_eq_true] at hle
        rw [inBounds, Bool.and_eq_true, decide_eq_true_eq] at h ⊢
        refine ⟨?_, ih bs is (by simpa using hlen) hle.2 h.2⟩
        have := hle.1
        simp only [decide_eq_true_eq] at this
        omega

/-- Every dimension of a shape bounds itself. -/
theorem zip_self_all_le (s : List Nat) : (s.zip s).all (fun p => p.1 ≤ p.2) = true := by
  induction s with
  | nil => rfl
  | cons d ds ih => simp [ih]

/-- Reading the padded array at an index valid for the target shape gives
the original element inside the source box and the pad value outside it. -/
theorem padCore_get (a : NDArray) (t : List Nat) (v : ℚ) (ix : List Nat)
    (hix : inBounds t ix = true) :
    ndGet (padCore a t v) ix = if inBounds a.shape ix then ndGet a ix else v := by
  unfold ndGet padCore
  simp only
  rw [List.getD_eq_getElem?_getD, List.getElem?_map, indicesOf_getElem? t ix hix]
  rfl

/-- C8 (amended): `pad_data` on `[[1,1]]` with target `(3,3)` and pad `-2`
yields `[[1,1,-2],[-2,-2,-2],[-2,-2,-2]]`; for every array and same-rank
target with every dimension at least the source dimension, it succeeds,
keeps every original element at its original (low) multi-index and puts
the pad value at every other target index; a target of a different rank
fails with `ValueError`, except the rank-1 broadcast case covered by the
counterexample. -/
theorem pad_data_behavior :
    (pad_data ⟨[1, 2], [1, 1]⟩ [3, 3] (-2)
        = .ok ⟨[3, 3], [1, 1, -2, -2, -2, -2, -2, -2, -2]⟩)
    ∧ (∀ (a : NDArray) (t : List Nat) (v : ℚ),
        a.shape.length = t.length → (a.shape.zip t).all (fun p => p.1 ≤ p.2) = true →
        ∃ p, pad_data a t v = .ok p ∧ p.shape = t
          ∧ (∀ ix, inBounds a.shape ix = true → ndGet p ix = ndGet a ix)
          ∧ (∀ ix, inBounds t ix = true → inBounds a.shape ix = false → ndGet p ix = v))
    ∧ (∀ (a : NDArray) (t : List Nat) (v : ℚ),
        a.shape.length ≠ t.length → t.length ≠ 1 → pad_data a t v = .error .valueError) := by
  refine ⟨by decide, ?_, ?_⟩
  · intro a t v h1 h2
    refine ⟨padCore a t v, by simp [pad_data, h1, h2], rfl, ?_, ?_⟩
    · intro ix hix
      have hixt : inBounds t ix = true := inBounds_mono a.shape t ix h1 h2 hix
      rw [padCore_get a t v ix hixt, if_pos hix]
    · intro ix hixt hix
      rw [padCore_get a t v ix hixt, if_neg (by simp [hix])]
  · intro a t v h1 h2
    simp [pad_data, h1, h2]

/-- C8 counterexample: a rank-1 target shape on a rank-2 array does not
fail — numpy broadcasts the single dimension across both axes, so
`pad_data([[1,1]], (3,), -2)` succeeds (and equals the `(3,3)` result). -/
theorem pad_data_rank1_target_succeeds :
    pad_data ⟨[1, 2], [1, 1]⟩ [3] (-2)
      = .ok ⟨[3, 3], [1, 1, -2, -2, -2, -2, -2, -2, -2]⟩
    ∧ ([3] : List Nat).length ≠ ([1, 2] : List Nat).length := by
  decide

/-- C8 witness: padding `[5, 7]` (shape `(2,)`) to `(3,)` keeps the two
original elements and pads index 2; padding `[[1,1]]` to the rank-3 target
`(3,3,3)` fails with `ValueError`. -/
theorem pad_data_behavior_witness :
    (∃ p, pad_data ⟨[2], [5, 7]⟩ [3] 0 = .ok p ∧ p.shape = [3]
      ∧ (∀ ix, inBounds [2] ix = true → ndGet p ix = ndGet ⟨[2], [5, 7]⟩ ix)
      ∧ (∀ ix, inBounds [3] ix = true → inBounds [2] ix = false → ndGet p ix = 0))
    ∧ pad_data ⟨[1, 2], [1, 1]⟩ [3, 3, 3] 0 = .error .valueError :=
  ⟨pad_data_behavior.2.1 ⟨[2], [5, 7]⟩ [3] 0 (by decide) (by decide),
   pad_data_behavior.2.2 ⟨[1, 2], [1, 1]⟩ [3, 3, 3] 0 (by decide) (by decide)⟩

/-- C10: padding an array to its own shape is the identity. -/
theorem pad_data_identity (a : NDArray) (v : ℚ) (hw : a.data.length = a.shape.prod) :
    pad_data a a.shape v = .ok a := by
  obtain ⟨s, dat⟩ := a
  simp only at hw
  unfold pad_data
  rw [if_pos rfl, if_pos (zip_self_all_le s)]
  have hdata : (indicesOf s).map
      (fun ix => if inBounds (NDArray.mk s dat).shape ix then ndGet ⟨s, dat⟩ ix else v) = dat := by
    apply List.ext_getElem?
    intro n
    by_cases hn : n < s.prod
    · obtain ⟨ix, h1, h2, h3⟩ := indicesOf_getElem_props s n hn
      rw [List.getElem?_map, h1]
      have hlen : n < dat.length := by rw [hw]; exact hn
      rw [List.getElem?_eq_getElem hlen]
      simp only [Option.map_some', Option.some.injEq]
      rw [if_pos h2]
      unfold ndGet
      simp only
      rw [h3, List.getD_eq_getElem?_getD, List.getElem?_eq_getElem hlen]
      rfl
    · rw [List.getElem?_map]
      rw [List.getElem?_eq_none (by rw [indicesOf_length]; omega)]
      rw [List.getElem?_eq_none (by rw [hw]; omega)]
      rfl
  unfold padCore
  rw [hdata]

/-- C10 witness: the 2×2 array `[[1,2],[3,4]]` padded to its own shape is
unchanged. -/
theorem pad_data_identity_witness :
    pad_data ⟨[2, 2], [1, 2, 3, 4]⟩ [2, 2] (-9) = .ok ⟨[2, 2], [1, 2, 3, 4]⟩ :=
  pad_data_identity ⟨[2, 2], [1, 2, 3, 4]⟩ (-9) (by decide)

/-- Decimal digit accumulator for `pyInt`. -/
def digitsVal : List Char → Nat → Option Nat
  | [], acc => some acc
  | c :: cs, acc => if c.isDigit then digitsVal cs (acc * 10 + (c.toNat - 48)) else none

/-- Python `int(s)` on the canonical strings this code stores in the
environment: an optional sign followed by decimal digits; anything else
(including the empty string) fails the conversion. -/
def pyInt (s : String) : Option Int :=
  match s.toList with
  | '-' :: cs => if cs.isEmpty then none else (digitsVal cs 0).map (fun n => -(n : Int))
  | '+' :: cs => if cs.isEmpty then none else (digitsVal cs 0).map (fun n => (n : Int))
  | cs => if cs.isEmpty then none else (digitsVal cs 0).map (fun n => (n : Int))

/-- The process state read and written by `cpu_count`: the relevant
`os.environ` entries (an unset variable is `none`) and the core count
reported by `os.sched_getaffinity(0)`. -/
structure CpuEnv where
  feNumThreadsCache : Option String
  feNumThreads : Option String
  ompNumThreads : Option String
  mklNumThreads : Option String
  tfInterop : Option String
  tfIntraop : Option String
  affinityCores : Nat
deriving DecidableEq, Repr

/-- Python truthiness of `os.environ.get(...)`: set and nonempty. -/
def strTruthy : Option String → Bool
  | none => false
  | some s => !s.isEmpty

/-- Python truthiness of the optional integer `limit` argument. -/
def intTruthy : Option Int → Bool
  | none => false
  | some v => decide (v ≠ 0)

/-- Python `x or d` for an optional/falsy integer `x`. -/
def pyOrInt : Option Int → Int → Int
  | none, d => d
  | some v, d => if v = 0 then d else v

/-- `fe.util.cpu_count(limit)`.  If the internal cache variable
`FE_NUM_THREADS_` is truthy it is parsed (`ValueError` on a malformed
value) and returned, unless a truthy `limit` differs from it (`ValueError`).
Otherwise the user variable `FE_NUM_THREADS` is parsed if truthy, the core
count is resolved as `min(cores, limit or cores, env_limit or cores)`,
values below 1 raise `ValueError`, and the decision is written back to the
cache and thread-count environment variables. -/
def cpu_count (limit : Option Int) (env : CpuEnv) : Except Err (Int × CpuEnv) :=
  if strTruthy env.feNumThreadsCache then
    match pyInt (env.feNumThreadsCache.getD "") with
    | none => .error .valueError
    | some existing =>
      if intTruthy limit && decide (limit ≠ some existing) then .error .valueError
      else .ok (existing, env)
  else
    match (if strTruthy env.feNumThreads then
             match pyInt (env.feNumThreads.getD "") with
             | none => (.error .valueError : Except Err (Option Int))
             | some v => .ok (some v)
           else .ok none) with
    | .error e => .error e
    | .ok envLimit =>
      let cores0 : Int := env.affinityCores
      let cores := min (min cores0 (pyOrInt limit cores0)) (pyOrInt envLimit cores0)
      if cores < 1 then .error .valueError
      else
        let state := toString cores
        .ok (cores,
          { feNumThreadsCache := some state, feNumThreads := env.feNumThreads,
            ompNumThreads := some state, mklNumThreads := some state,
            tfInterop := some state, tfIntraop := some state,
            affinityCores := env.affinityCores })

/-- C9: with at least 2 usable cores and no thread-limit variables set,
`cpu_count(limit=2)` resolves and caches 2; calling it again with the same
limit reads the cache and returns 2 without changing the state; calling it
with `limit=4` then fails with `ValueError`. -/
theorem cpu_count_cached_limit (env : CpuEnv)
    (h1 : env.feNumThreadsCache = none) (h2 : env.feNumThreads = none)
    (h3 : 2 ≤ env.affinityCores) :
    ∃ env', cpu_count (some 2) env = .ok (2, env')
      ∧ cpu_count (some 2) env' = .ok (2, env')
      ∧ cpu_count (some 4) env' = .error .valueError := by
  have hc : (2 : Int) ≤ (env.affinityCores : Int) := by exact_mod_cast h3
  have hmin : min (min (env.affinityCores : Int) 2) (env.affinityCores : Int) = 2 := by omega
  have ht : toString (2 : Int) = "2" := by decide
  have hp : pyInt "2" = some 2 := by decide
  refine ⟨{ feNumThreadsCache := some "2", feNumThreads := none,
            ompNumThreads := some "2", mklNumThreads := some "2",
            tfInterop := some "2", tfIntraop := some "2",
            affinityCores := env.affinityCores }, ?_, ?_, ?_⟩
  · have h20 : (if (2 : Int) = 0 then ((env.affinityCores : Int)) else 2) = 2 :=
      if_neg (by decide)
    simp only [cpu_count, h1, h2, strTruthy, Bool.false_eq_true, if_false, pyOrInt, h20, hmin]
    rw [if_neg (by decide)]
    rw [ht]
  · have hie : ("2" : String).isEmpty = false := by decide
    have h22 : (intTruthy (some 2) && decide ((some (2 : Int)) ≠ some 2)) = false := by decide
    simp [cpu_count, strTruthy, hie, hp, h22]
  · have hie : ("2" : String).isEmpty = false := by decide
    have h42 : (intTruthy (some 4) && decide ((some (4 : Int)) ≠ some 2)) = true := by decide
    simp [cpu_count, strTruthy, hie, hp, h42, intTruthy]

/-- C9 witness: a 4-core machine with a clean environment. -/
theorem cpu_count_cached_limit_witness :
    ∃ env', cpu_count (some 2) ⟨none, none, none, none, none, none, 4⟩ = .ok (2, env')
      ∧ cpu_count (some 2) env' = .ok (2, env')
      ∧ cpu_count (some 4) env' = .error .valueError :=
  cpu_count_cached_limit ⟨none, none, none, none, none, none, 4⟩ rfl rfl (by decide)
